/-
  Verification of the annotation-agreement repository.

  This file shallowly embeds src/aposteriori.py and settles the frozen claims
  about it.  The nDFU engine (src/ndfu.py) is not part of the source snapshot
  (only its tests are), so `to_histogram`, `ndfuVal` and `ndfu` below are
  modelled from the specification; every definition carrying such a model says
  so in its doc comment.  numpy float64 values are modelled as rationals: all
  arithmetic the claims exercise is exact at the inputs considered.
-/
import Mathlib

namespace AnnotationAgreement

/-- Python `ValueError`, the single error kind raised by the library. -/
inductive Err where
  | valueError : String → Err
deriving DecidableEq

/-- Boolean test for the error outcome of a fallible computation. -/
def isErr {α : Type} : Except Err α → Bool
  | .error _ => true
  | .ok _ => false

/-- Modelled from the spec: the bin a score falls into, for the histogram
primitive of the nDFU engine (src/ndfu.py is absent from the snapshot; its
tests call it as `_to_hist(scores, bins_num, normed)`).  The spec fixes
`bins_num` equal-width bins over the fixed scale interval `[lo, hi]`, each
half-open, the last closed on the right; a score outside the scale falls in no
bin.  The index is computed by floor division by the bin width, clamping the
right endpoint of the scale into the last bin. -/
def binIndex (lo hi : ℚ) (n : ℕ) (s : ℚ) : Option ℕ :=
  if s < lo ∨ hi < s then none
  else some (min (⌊(s - lo) / ((hi - lo) / n)⌋.toNat) (n - 1))

/-- Modelled from the spec: `to_histogram` / `_to_hist` of the nDFU engine —
the count of scores per bin, in bin order. -/
def to_histogram (scores : List ℚ) (n : ℕ) (lo hi : ℚ) : List ℕ :=
  (List.range n).map (fun i => scores.countP (fun s => binIndex lo hi n s == some i))

/-- Bin membership exactly as the spec words it: bin `i` of `n` bins over
`[lo, hi]` is the half-open interval from `lo + i·w` (inclusive) to
`lo + (i+1)·w` (exclusive) of width `w = (hi - lo)/n`, except the last bin,
which is closed on the right at `hi`. -/
def memBin (lo hi : ℚ) (n i : ℕ) (s : ℚ) : Prop :=
  lo + i * ((hi - lo) / n) ≤ s ∧
    (if i + 1 = n then s ≤ hi else s < lo + (i + 1) * ((hi - lo) / n))

instance (lo hi : ℚ) (n i : ℕ) (s : ℚ) : Decidable (memBin lo hi n i s) := by
  unfold memBin; infer_instance

/-- First index attaining the maximum of a list of frequencies (the spec fixes
peak ties to the lowest index). -/
def peakIndex (l : List ℚ) : ℕ := l.indexOf (l.foldr max 0)

/-- Modelled from the spec: the nDFU score of a list of raw scores.  The raw
scores are binned over the default rating scale 1..5 with five bins, the
histogram is normalized to sum to one, and the dispersion-from-peak measure
(each bin's frequency weighted by its bin distance from the peak) is divided
by the maximally polarized value, attained when all mass is split between the
two extreme bins.  Degenerate divisions are guarded to zero.  No claim below
depends on the numeric value of this score, only on its determinism. -/
def ndfuVal (scores : List ℚ) : ℚ :=
  let hist : List ℚ := (to_histogram scores 5 1 5).map (fun c => (c : ℚ))
  let total := hist.sum
  let dist := if total = 0 then hist else hist.map (fun c => c / total)
  let p := peakIndex dist
  let wsum := (dist.enum.map (fun q => q.2 * |(q.1 : ℚ) - (p : ℚ)|)).sum
  wsum / (((5 : ℚ) - 1) / 2)

/-- Modelled from the spec: `ndfu` fails with the invalid-input error on empty
input (spec §4.1 and `test_ndfu_empty_data`), otherwise returns the
deterministic score of the data. -/
def ndfu (scores : List ℚ) : Except Err ℚ :=
  if scores = [] then .error (.valueError "Input data cannot be empty.")
  else .ok (ndfuVal scores)

/-- `aposteriori_unit` from src/aposteriori.py: nDFU of the whole comment's
scores minus nDFU of the group's subset of them. -/
def aposteriori_unit (global_scores level_scores : List ℚ) : Except Err ℚ := do
  let g ← ndfu global_scores
  let l ← ndfu level_scores
  pure (g - l)

/-- The numpy mask `annotations[annotator_group == level]` inside
`level_aposteriori_unit`: the scores whose positionally paired label equals
`level`. -/
def levelScores (anns : List ℚ) (grps : List String) (level : String) : List ℚ :=
  ((anns.zip grps).filter (fun p => p.2 == level)).map Prod.fst

/-- `level_aposteriori_unit` from src/aposteriori.py. -/
def level_aposteriori_unit (anns : List ℚ) (grps : List String) (level : String) :
    Except Err ℚ :=
  aposteriori_unit anns (levelScores anns grps level)

/-- Midrank of `x` in the multiset `l` (ties share the average of the rank
positions they occupy), used by the signed-rank test. -/
def midrank (l : List ℚ) (x : ℚ) : ℚ :=
  ((l.countP (fun y => decide (y < x)) : ℚ) + (l.countP (fun y => decide (y ≤ x)) : ℚ) + 1) / 2

/-- Modelled from the spec: the external collaborator `scipy.stats.wilcoxon`
with `y = 0` and alternative `"greater"`, as the exact one-sided Wilcoxon
signed-rank test — zero differences are dropped, absolute values are ranked
with midranks for ties, and the p-value is the share of the `2^m` sign
assignments whose positive-rank sum is at least the observed one. -/
def wilcoxonGreaterPValue (stats : List ℚ) : ℚ :=
  let v := stats.filter (fun x => decide (x ≠ 0))
  let r := v.map (fun x => midrank (v.map (fun y => |y|)) |x|)
  let wobs := (((v.zip r).filter (fun p => decide (0 < p.1))).map Prod.snd).sum
  ((r.sublists.countP (fun s => decide (wobs ≤ s.sum)) : ℚ)) / 2 ^ r.length

/-- `level_aposteriori_whole` from src/aposteriori.py: with
`y = np.zeros_like(x)`, the guard `np.sum(x - y) == 0` is the sum of the
statistics being zero, in which case 1.0 is returned; otherwise the one-sided
Wilcoxon signed-rank p-value of the statistics against zero. -/
def level_aposteriori_whole (stats : List ℚ) : ℚ :=
  if stats.sum = 0 then 1 else wilcoxonGreaterPValue stats

/-- All distinct group labels occurring anywhere in the dataset: models
`np.unique(np.concatenate(annotator_group))` up to ordering — `np.unique`
sorts, `List.dedup` does not, and only the set of labels is observable in the
claims below. -/
def uniqueLevels (grps : List (List String)) : List String := grps.flatten.dedup

/-- `aposteriori_unimodality` from src/aposteriori.py: the validation checks in
source order, then per-comment per-level unit statistics, then the per-level
aggregation.  The comment loop re-evaluates `np.unique(annotator_group)` on
the raw list of per-comment label arrays: when the comments have different
annotator counts this raises ValueError (numpy cannot form or sort the ragged
array), before any unit statistic is computed, which the branch after the
validation checks models; on length-homogeneous datasets it returns the same
label set as `uniqueLevels`.  The Python loop is comment-major while this
embedding is level-major; the dictionary built is the same, and the only error
that can arise inside the loops is the single value `ndfu` raises on an empty
subset, so the observable outcome agrees. -/
def aposteriori_unimodality (anns : List (List ℚ)) (grps : List (List String)) :
    Except Err (List (String × ℚ)) :=
  if anns.length ≠ grps.length then
    .error (.valueError
      "The number of comments in annotations and annotator_group must be the same.")
  else if anns.length = 0 then
    .ok []
  else if (anns.zip grps).any
      (fun p => p.1.length != p.2.length || p.1.length == 0 || p.2.length == 0) then
    .error (.valueError
      "Annotations and group assignments must have the same length for each comment.")
  else if (anns.zip grps).any (fun p => p.1.length == 0 || p.2.length == 0) then
    .error (.valueError "Comments should have at least one annotation.")
  else if grps.any (fun g => g.length != (grps.headD []).length) then
    .error (.valueError "The requested array has an inhomogeneous shape.")
  else
    (uniqueLevels grps).mapM (fun level => do
      let stats ← (anns.zip grps).mapM (fun p => level_aposteriori_unit p.1 p.2 level)
      pure (level, level_aposteriori_whole stats))

/-- The dedup of a non-empty list all of whose elements are `L` is `[L]`. -/
lemma dedup_all_eq {l : List String} {L : String} (h0 : l ≠ []) (h : ∀ x ∈ l, x = L) :
    l.dedup = [L] := by
  induction l with
  | nil => exact absurd rfl h0
  | cons a t ih =>
    cases t with
    | nil =>
      have ha : a = L := h a (by simp)
      simp [ha]
    | cons b t2 =>
      have ha : a = L := h a (by simp)
      have hb : b = L := h b (by simp)
      have hmem : a ∈ b :: t2 := by rw [ha, ← hb]; exact List.mem_cons_self b t2
      rw [List.dedup_cons_of_mem hmem]
      exact ih (by simp) (fun x hx => h x (List.mem_cons_of_mem a hx))

/-- A `mapM` over `Except` whose body always succeeds with a known value
succeeds with the mapped list. -/
lemma mapM_ok_of_eq_ok {α β : Type} (f : α → Except Err β) (b : α → β) :
    ∀ l : List α, (∀ x ∈ l, f x = .ok (b x)) → l.mapM f = .ok (l.map b) := by
  intro l
  induction l with
  | nil => intro _; rfl
  | cons a t ih =>
    intro h
    rw [List.mapM_cons, h a (by simp), ih (fun x hx => h x (by simp [hx]))]
    rfl

/-- A `mapM` over `Except` whose body always succeeds, succeeds. -/
lemma mapM_exists_ok {α β : Type} (f : α → Except Err β) :
    ∀ l : List α, (∀ x ∈ l, ∃ b, f x = .ok b) → ∃ s, l.mapM f = .ok s := by
  intro l
  induction l with
  | nil => intro _; exact ⟨[], rfl⟩
  | cons a t ih =>
    intro h
    obtain ⟨b, hb⟩ := h a (by simp)
    obtain ⟨s, hs⟩ := ih (fun x hx => h x (by simp [hx]))
    exact ⟨b :: s, by rw [List.mapM_cons, hb, hs]; rfl⟩

/-- Mismatching comment counts trip the first validation check. -/
lemma err_of_len_mismatch {anns : List (List ℚ)} {grps : List (List String)}
    (h : anns.length ≠ grps.length) : isErr (aposteriori_unimodality anns grps) = true := by
  unfold aposteriori_unimodality
  rw [if_pos h]
  rfl

/-- A comment with mismatching or empty score/label lists trips validation. -/
lemma err_of_bad_pair {anns : List (List ℚ)} {grps : List (List String)}
    {p : List ℚ × List String} (hp : p ∈ anns.zip grps)
    (hbad : p.1.length ≠ p.2.length ∨ p.1.length = 0) :
    isErr (aposteriori_unimodality anns grps) = true := by
  by_cases hlen : anns.length = grps.length
  · unfold aposteriori_unimodality
    rw [if_neg (by simp [hlen])]
    have hz : anns.length ≠ 0 := by
      have hzz : (anns.zip grps).length ≠ 0 := by
        intro hc
        rw [List.length_eq_zero] at hc
        rw [hc] at hp
        simp at hp
      rw [List.length_zip, hlen, min_self] at hzz
      rw [hlen]
      exact hzz
    rw [if_neg hz, if_pos]
    · rfl
    · rw [List.any_eq_true]
      refine ⟨p, hp, ?_⟩
      rcases hbad with hb | hb
      · simp [hb]
      · simp [hb]
  · exact err_of_len_mismatch hlen

/-- When the validation checks pass, the call reduces to the per-level
aggregation. -/
lemma validation_passes {anns : List (List ℚ)} {grps : List (List String)}
    (hlen : anns.length = grps.length) (h0 : anns ≠ [])
    (hpairs : ∀ p ∈ anns.zip grps, p.1.length = p.2.length ∧ p.1 ≠ [])
    (hhom : ∀ g1 ∈ grps, ∀ g2 ∈ grps, g1.length = g2.length) :
    aposteriori_unimodality anns grps =
      (uniqueLevels grps).mapM (fun level => do
        let stats ← (anns.zip grps).mapM (fun p => level_aposteriori_unit p.1 p.2 level)
        pure (level, level_aposteriori_whole stats)) := by
  have hok : ∀ p ∈ anns.zip grps,
      (p.1.length != p.2.length) = false ∧
      (p.1.length == 0) = false ∧ (p.2.length == 0) = false := by
    intro p hp
    obtain ⟨hl, hne⟩ := hpairs p hp
    have h1 : p.1.length ≠ 0 := by simpa [List.length_eq_zero] using hne
    have h2 : p.2.length ≠ 0 := by rw [← hl]; exact h1
    exact ⟨by simp [hl], by simp [h1], by simp [h2]⟩
  have h3 : ((anns.zip grps).any
      (fun p => p.1.length != p.2.length || p.1.length == 0 || p.2.length == 0)) = false := by
    rw [List.any_eq_false]
    intro p hp
    obtain ⟨ha, hb, hc⟩ := hok p hp
    simp [ha, hb, hc]
  have h4 : ((anns.zip grps).any (fun p => p.1.length == 0 || p.2.length == 0)) = false := by
    rw [List.any_eq_false]
    intro p hp
    obtain ⟨ha, hb, hc⟩ := hok p hp
    simp [hb, hc]
  have h5 : (grps.any (fun g => g.length != (grps.headD []).length)) = false := by
    rw [List.any_eq_false]
    intro g hg
    cases grps with
    | nil => simp at hg
    | cons a t =>
      have he := hhom g hg a (by simp)
      simp [he]
  unfold aposteriori_unimodality
  rw [if_neg (by simp [hlen]), if_neg (by simpa using h0), if_neg (by simp [h3]),
    if_neg (by simp [h4]), if_neg (by rw [h5]; simp)]

/-- The scores of a level that labels every annotator are the whole comment. -/
lemma levelScores_all {anns : List ℚ} {grps : List String} {L : String}
    (hlen : anns.length = grps.length) (hall : ∀ x ∈ grps, x = L) :
    levelScores anns grps L = anns := by
  unfold levelScores
  have hf : (anns.zip grps).filter (fun p => p.2 == L) = anns.zip grps := by
    rw [List.filter_eq_self]
    intro p hp
    have := hall p.2 (List.of_mem_zip hp).2
    simp [this]
  rw [hf]
  exact List.map_fst_zip anns grps (le_of_eq hlen)

/-- A level occurring among a comment's labels selects at least one score. -/
lemma levelScores_ne_nil {anns : List ℚ} {grps : List String} {L : String}
    (hlen : anns.length = grps.length) (hmem : L ∈ grps) :
    levelScores anns grps L ≠ [] := by
  obtain ⟨i, hig, hget⟩ := List.mem_iff_getElem.mp hmem
  have hia : i < anns.length := by omega
  have hi : i < (anns.zip grps).length := by
    rw [List.length_zip]
    omega
  have hm := List.getElem_mem hi
  rw [List.getElem_zip, hget] at hm
  have hmemf : ((anns[i], L) : ℚ × String) ∈
      (anns.zip grps).filter (fun p => p.2 == L) :=
    List.mem_filter.mpr ⟨hm, by simp⟩
  unfold levelScores
  intro hcontra
  rw [List.map_eq_nil_iff] at hcontra
  rw [hcontra] at hmemf
  simp at hmemf

/-- A per-comment, per-level unit statistic succeeds exactly on non-empty
score lists and a non-empty selected subset, with the delta of the nDFU
scores as its value. -/
lemma level_unit_ok {anns : List ℚ} {grps : List String} {L : String}
    (h0 : anns ≠ []) (hsub : levelScores anns grps L ≠ []) :
    level_aposteriori_unit anns grps L =
      .ok (ndfuVal anns - ndfuVal (levelScores anns grps L)) := by
  unfold level_aposteriori_unit aposteriori_unit ndfu
  rw [if_neg h0, if_neg hsub]
  rfl

/-- A per-comment, per-level unit statistic for a level absent from the
comment's labels raises the empty-input error of `ndfu`. -/
lemma level_unit_err {anns : List ℚ} {grps : List String} {L : String}
    (h0 : anns ≠ []) (hsub : levelScores anns grps L = []) :
    level_aposteriori_unit anns grps L =
      .error (.valueError "Input data cannot be empty.") := by
  unfold level_aposteriori_unit aposteriori_unit ndfu
  rw [if_neg h0, hsub, if_pos rfl]
  rfl

/-- C2 (amended): for every non-empty list of per-group deltas whose sum is
nonzero, `level_aposteriori_whole` returns the p-value of the one-sided
Wilcoxon signed-rank test of the deltas against zero, alternative greater. -/
theorem claim_C2 (deltas : List ℚ) (_h0 : deltas ≠ []) (h : deltas.sum ≠ 0) :
    level_aposteriori_whole deltas = wilcoxonGreaterPValue deltas := by
  unfold level_aposteriori_whole
  rw [if_neg h]

/-- Witness for C2 at the deltas 0.1, 0.2, 0.3 of the repository's own test. -/
theorem claim_C2_witness :
    level_aposteriori_whole [1/10, 1/5, 3/10] = wilcoxonGreaterPValue [1/10, 1/5, 3/10] :=
  claim_C2 [1/10, 1/5, 3/10] (by simp) (by norm_num [List.sum_cons, List.sum_nil])

/-- C2 counterexample: the deltas 0.5, -0.5 are non-empty and not all zero,
yet `level_aposteriori_whole` returns 1.0 (their sum is zero) while the
Wilcoxon signed-rank p-value of these deltas is 3/4. -/
theorem claim_C2_counterexample :
    ([(1:ℚ)/2, -1/2] ≠ []) ∧
    ([(1:ℚ)/2, -1/2].all (fun x => x == 0)) = false ∧
    level_aposteriori_whole [(1:ℚ)/2, -1/2] = 1 ∧
    wilcoxonGreaterPValue [(1:ℚ)/2, -1/2] = 3/4 ∧
    level_aposteriori_whole [(1:ℚ)/2, -1/2] ≠ wilcoxonGreaterPValue [(1:ℚ)/2, -1/2] := by
  have hw : wilcoxonGreaterPValue [(1:ℚ)/2, -1/2] = 3/4 := by
    norm_num [wilcoxonGreaterPValue, midrank, List.sublists, List.filter, List.countP,
      List.countP.go, List.zip, List.zipWith]
  have hl : level_aposteriori_whole [(1:ℚ)/2, -1/2] = 1 := by
    unfold level_aposteriori_whole
    rw [if_pos (by norm_num [List.sum_cons, List.sum_nil])]
  refine ⟨by simp, by norm_num, hl, hw, ?_⟩
  rw [hl, hw]
  norm_num

/-- C3: the call raises the invalid-input error whenever the comment counts of
the two collections differ, and whenever some comment has score and label
lists of different lengths or no annotations at all. -/
theorem claim_C3 (anns : List (List ℚ)) (grps : List (List String))
    (h : anns.length ≠ grps.length ∨
      ∃ p ∈ anns.zip grps, p.1.length ≠ p.2.length ∨ p.1.length = 0) :
    isErr (aposteriori_unimodality anns grps) = true := by
  rcases h with h | ⟨p, hp, hbad⟩
  · exact err_of_len_mismatch h
  · exact err_of_bad_pair hp hbad

/-- Witness for C3 at a comment-count mismatch. -/
theorem claim_C3_witness : isErr (aposteriori_unimodality [[1]] []) = true :=
  claim_C3 [[1]] [] (Or.inl (by simp))

/-- C4: an empty comment collection (with equally empty labels) yields the
empty mapping without error, while any comment with an empty score list
raises the invalid-input error. -/
theorem claim_C4 :
    aposteriori_unimodality [] [] = .ok [] ∧
    ∀ (anns : List (List ℚ)) (grps : List (List String)),
      (∃ p ∈ anns.zip grps, p.1 = []) →
      isErr (aposteriori_unimodality anns grps) = true := by
  constructor
  · rfl
  · intro anns grps h
    obtain ⟨p, hp, hnil⟩ := h
    exact err_of_bad_pair hp (Or.inr (by simp [hnil]))

/-- Witness for C4: empty input gives the empty mapping; a single comment with
an empty score list errors. -/
theorem claim_C4_witness :
    aposteriori_unimodality [] [] = .ok [] ∧
    isErr (aposteriori_unimodality [[]] [[]]) = true :=
  ⟨claim_C4.1, claim_C4.2 [[]] [[]] ⟨([], []), by simp, rfl⟩⟩

/-- C5: on per-group deltas that are all exactly zero,
`level_aposteriori_whole` returns exactly 1. -/
theorem claim_C5 (deltas : List ℚ) (h : ∀ x ∈ deltas, x = 0) :
    level_aposteriori_whole deltas = 1 := by
  unfold level_aposteriori_whole
  rw [if_pos (List.sum_eq_zero h)]

/-- Witness for C5 at the spec's own example, `[0, 0, 0]`. -/
theorem claim_C5_witness : level_aposteriori_whole [0, 0, 0] = 1 :=
  claim_C5 [0, 0, 0] (by intro x hx; simpa using hx)

/-- C8: the single-comment, single-group delta of a non-empty score list
against itself is exactly zero. -/
theorem claim_C8 (g : List ℚ) (h : g ≠ []) : aposteriori_unit g g = .ok 0 := by
  unfold aposteriori_unit ndfu
  rw [if_neg h]
  show Except.ok (ndfuVal g - ndfuVal g) = Except.ok 0
  rw [sub_self]

/-- Witness for C8 at the score list 0.1, 0.2, 0.3, 0.4 of the repository's
own test. -/
theorem claim_C8_witness :
    aposteriori_unit [1/10, 1/5, 3/10, 2/5] [1/10, 1/5, 3/10, 2/5] = .ok 0 :=
  claim_C8 [1/10, 1/5, 3/10, 2/5] (by simp)

/-- The deduplication of a list has the same elements as a finite set. -/
lemma dedup_toFinset (l : List String) : l.dedup.toFinset = l.toFinset := by
  ext x
  simp [List.mem_toFinset, List.mem_dedup]

/-- The per-level aggregation loop succeeds and keeps the levels, in order, as
the keys of the result, whenever the per-level statistics all succeed. -/
lemma mapM_levels_ok (levels : List String) (f : String → Except Err (List ℚ))
    (h : ∀ lvl ∈ levels, ∃ s, f lvl = .ok s) :
    ∃ r, (levels.mapM (fun lvl => do
        let stats ← f lvl
        pure (lvl, level_aposteriori_whole stats)) : Except Err _) = .ok r ∧
      r.map Prod.fst = levels := by
  induction levels with
  | nil => exact ⟨[], rfl, rfl⟩
  | cons a t ih =>
    obtain ⟨s, hs⟩ := h a (by simp)
    obtain ⟨r, hr, hk⟩ := ih (fun x hx => h x (by simp [hx]))
    refine ⟨(a, level_aposteriori_whole s) :: r, ?_, by simp [hk]⟩
    simp only [List.mapM_cons]
    rw [hs, hr]
    rfl

/-- C1 (code-bug evidence): a validated two-comment dataset whose first
comment is labelled only "A" and whose second only "B" makes the call raise
the invalid-input error instead of excluding the absent level from each
comment: the orchestrator computes a unit statistic for every
(comment, level) pair and `ndfu` rejects the empty subset. -/
theorem claim_C1 : isErr (aposteriori_unimodality [[1], [2]] [["A"], ["B"]]) = true := by
  have hred := @validation_passes [[1], [2]] [["A"], ["B"]] rfl (by simp) (by decide)
    (by decide)
  rw [hred]
  have hlev : uniqueLevels [["A"], ["B"]] = ["A", "B"] := by decide
  rw [hlev]
  have hzip : ([[1], [2]] : List (List ℚ)).zip [["A"], ["B"]] =
      [([1], ["A"]), ([2], ["B"])] := by
    simp [List.zip]
  have e1 : level_aposteriori_unit [1] ["A"] "A" =
      .ok (ndfuVal [1] - ndfuVal (levelScores [1] ["A"] "A")) :=
    level_unit_ok (by simp) (by simp [levelScores])
  have e2 : level_aposteriori_unit [2] ["B"] "A" =
      .error (.valueError "Input data cannot be empty.") :=
    level_unit_err (by simp) (by simp [levelScores])
  rw [hzip]
  simp only [List.mapM_cons, List.mapM_nil]
  rw [e1, e2]
  rfl

/-- C6 (amended): a valid non-empty dataset in which the single group level L
labels every annotator of every comment, and whose comments all have the same
number of annotations, returns exactly the mapping L ↦ 1.0. -/
theorem claim_C6 (anns : List (List ℚ)) (grps : List (List String)) (L : String)
    (hlen : anns.length = grps.length) (h0 : anns ≠ [])
    (hpairs : ∀ p ∈ anns.zip grps, p.1.length = p.2.length ∧ p.1 ≠ [])
    (hhom : ∀ g1 ∈ grps, ∀ g2 ∈ grps, g1.length = g2.length)
    (hall : ∀ grp ∈ grps, ∀ x ∈ grp, x = L) :
    aposteriori_unimodality anns grps = .ok [(L, 1)] := by
  rw [validation_passes hlen h0 hpairs hhom]
  have hflat : ∀ x ∈ grps.flatten, x = L := by
    intro x hx
    obtain ⟨l, hl, hxl⟩ := List.mem_flatten.mp hx
    exact hall l hl x hxl
  have hfne : grps.flatten ≠ [] := by
    cases anns with
    | nil => exact absurd rfl h0
    | cons a as =>
      cases grps with
      | nil => simp at hlen
      | cons b bs =>
        obtain ⟨hl, hne⟩ := hpairs (a, b) (by simp [List.zip_cons_cons])
        have hbne : b ≠ [] := by
          intro hc
          rw [hc] at hl
          simp [List.length_eq_zero] at hl
          exact hne hl
        obtain ⟨y, hy⟩ := List.exists_mem_of_ne_nil b hbne
        exact List.ne_nil_of_mem (List.mem_flatten.mpr ⟨b, by simp, hy⟩)
  have hlev : uniqueLevels grps = [L] := by
    unfold uniqueLevels
    exact dedup_all_eq hfne hflat
  rw [hlev]
  have hunit : ∀ p ∈ anns.zip grps, level_aposteriori_unit p.1 p.2 L = .ok 0 := by
    intro p hp
    obtain ⟨hl, hne⟩ := hpairs p hp
    have hallp : ∀ x ∈ p.2, x = L := hall p.2 (List.of_mem_zip hp).2
    have hsc : levelScores p.1 p.2 L = p.1 := levelScores_all hl hallp
    rw [level_unit_ok hne (by rw [hsc]; exact hne), hsc, sub_self]
  have hin : (anns.zip grps).mapM (fun p => level_aposteriori_unit p.1 p.2 L) =
      .ok ((anns.zip grps).map (fun _ => (0 : ℚ))) :=
    mapM_ok_of_eq_ok _ _ _ hunit
  have hwhole : level_aposteriori_whole ((anns.zip grps).map (fun _ => (0 : ℚ))) = 1 := by
    unfold level_aposteriori_whole
    rw [if_pos]
    apply List.sum_eq_zero
    intro x hx
    obtain ⟨_, _, hzero⟩ := List.mem_map.mp hx
    exact hzero.symm
  simp only [List.mapM_cons, List.mapM_nil]
  rw [hin]
  show Except.ok [(L, level_aposteriori_whole ((anns.zip grps).map (fun _ => (0 : ℚ))))] =
    Except.ok [(L, 1)]
  rw [hwhole]

/-- Witness for C6 at the single-group test input of the repository:
one comment with scores 0.1, 0.2, 0.3, 0.4 all labelled "A". -/
theorem claim_C6_witness :
    aposteriori_unimodality [[1/10, 1/5, 3/10, 2/5]] [["A", "A", "A", "A"]] =
      .ok [("A", 1)] :=
  claim_C6 _ _ "A" rfl (by simp) (by decide) (by decide) (by decide)

/-- C6 counterexample: a valid dataset labelled everywhere by the single
level "A" but whose two comments have different annotator counts makes the
call raise — `np.unique` on the ragged list of label arrays raises ValueError
— instead of returning the mapping A ↦ 1.0. -/
theorem claim_C6_counterexample :
    (([[1], [2, 3]] : List (List ℚ)).length =
      ([["A"], ["A", "A"]] : List (List String)).length) ∧
    ((([[1], [2, 3]] : List (List ℚ)).zip [["A"], ["A", "A"]]).all
      (fun p => p.1.length == p.2.length && p.1.length != 0)) = true ∧
    (([["A"], ["A", "A"]] : List (List String)).all
      (fun grp => grp.all (fun x => x == "A"))) = true ∧
    isErr (aposteriori_unimodality [[1], [2, 3]] [["A"], ["A", "A"]]) = true := by
  refine ⟨rfl, by decide, by decide, by decide⟩

/-- C7 (amended): on every valid input — equal comment counts, per-comment
equal non-zero lengths — whose comments all have the same number of
annotations and in which every group level occurring in the dataset occurs in
every comment's label sequence, the call succeeds and the key set of the
returned mapping is exactly the set of distinct group labels occurring
anywhere in the dataset. -/
theorem claim_C7 (anns : List (List ℚ)) (grps : List (List String))
    (hlen : anns.length = grps.length)
    (hpairs : ∀ p ∈ anns.zip grps, p.1.length = p.2.length ∧ p.1 ≠ [])
    (hhom : ∀ g1 ∈ grps, ∀ g2 ∈ grps, g1.length = g2.length)
    (hcover : ∀ level ∈ grps.flatten, ∀ grp ∈ grps, level ∈ grp) :
    (aposteriori_unimodality anns grps).map (fun r => (r.map Prod.fst).toFinset) =
      .ok grps.flatten.toFinset := by
  by_cases h0 : anns = []
  · subst h0
    have hg : grps = [] := by
      rw [← List.length_eq_zero]
      simpa using hlen.symm
    subst hg
    rfl
  · rw [validation_passes hlen h0 hpairs hhom]
    have hlv : ∀ level ∈ uniqueLevels grps, ∃ s,
        (anns.zip grps).mapM (fun p => level_aposteriori_unit p.1 p.2 level) = .ok s := by
      intro level hlev
      apply mapM_exists_ok
      intro p hp
      obtain ⟨hl, hne⟩ := hpairs p hp
      have hmem : level ∈ p.2 :=
        hcover level (by
            unfold uniqueLevels at hlev
            exact List.mem_dedup.mp hlev)
          p.2 (List.of_mem_zip hp).2
      exact ⟨_, level_unit_ok hne (levelScores_ne_nil hl hmem)⟩
    obtain ⟨r, hr, hkeys⟩ := mapM_levels_ok (uniqueLevels grps)
      (fun level => (anns.zip grps).mapM (fun p => level_aposteriori_unit p.1 p.2 level)) hlv
    have hr2 : ((uniqueLevels grps).mapM (fun level => do
        let stats ← (anns.zip grps).mapM (fun p => level_aposteriori_unit p.1 p.2 level)
        pure (level, level_aposteriori_whole stats)) : Except Err _) = .ok r := hr
    rw [hr2]
    show Except.ok ((r.map Prod.fst).toFinset) = Except.ok grps.flatten.toFinset
    rw [hkeys]
    unfold uniqueLevels
    rw [dedup_toFinset]

/-- Witness for C7: two comments of equal annotator counts, both containing
every level. -/
theorem claim_C7_witness :
    (aposteriori_unimodality [[1, 2], [3, 4]] [["A", "B"], ["B", "A"]]).map
      (fun r => (r.map Prod.fst).toFinset) =
      .ok ([["A", "B"], ["B", "A"]] : List (List String)).flatten.toFinset :=
  claim_C7 _ _ rfl (by decide) (by decide) (by decide)

/-- C7 counterexample: two valid inputs on which the call nevertheless
raises.  First, an input of equal annotator counts whose level "B" is absent
from the first comment.  Second, an input whose comments differ in annotator
count — with every level present in every comment — where `np.unique` raises
ValueError on the ragged list of label arrays. -/
theorem claim_C7_counterexample :
    (([[1, 2], [3, 4]] : List (List ℚ)).length =
      ([["A", "A"], ["B", "B"]] : List (List String)).length) ∧
    ((([[1, 2], [3, 4]] : List (List ℚ)).zip [["A", "A"], ["B", "B"]]).all
      (fun p => p.1.length == p.2.length && p.1.length != 0)) = true ∧
    isErr (aposteriori_unimodality [[1, 2], [3, 4]] [["A", "A"], ["B", "B"]]) = true ∧
    ((([[1, 2], [3, 4, 5]] : List (List ℚ)).zip [["A", "B"], ["B", "A", "A"]]).all
      (fun p => p.1.length == p.2.length && p.1.length != 0)) = true ∧
    (([["A", "B"], ["B", "A", "A"]] : List (List String)).flatten.all
      (fun level => [["A", "B"], ["B", "A", "A"]].all
        (fun grp => grp.contains level))) = true ∧
    isErr (aposteriori_unimodality [[1, 2], [3, 4, 5]] [["A", "B"], ["B", "A", "A"]])
      = true := by
  refine ⟨rfl, by decide, ?_, by decide, by decide, by decide⟩
  have hred := @validation_passes [[1, 2], [3, 4]] [["A", "A"], ["B", "B"]] rfl
    (by simp) (by decide) (by decide)
  rw [hred]
  have hlev : uniqueLevels [["A", "A"], ["B", "B"]] = ["A", "B"] := by decide
  rw [hlev]
  have hzip : ([[1, 2], [3, 4]] : List (List ℚ)).zip [["A", "A"], ["B", "B"]] =
      [([1, 2], ["A", "A"]), ([3, 4], ["B", "B"])] := by
    simp [List.zip]
  have e1 : level_aposteriori_unit [1, 2] ["A", "A"] "A" =
      .ok (ndfuVal [1, 2] - ndfuVal (levelScores [1, 2] ["A", "A"] "A")) :=
    level_unit_ok (by simp) (by simp [levelScores])
  have e2 : level_aposteriori_unit [3, 4] ["B", "B"] "A" =
      .error (.valueError "Input data cannot be empty.") :=
    level_unit_err (by simp) (by simp [levelScores])
  rw [hzip]
  simp only [List.mapM_cons, List.mapM_nil]
  rw [e1, e2]
  rfl

/-- C10: on any list of deltas summing to exactly zero — all-zero or not —
`level_aposteriori_whole` returns exactly 1 from its sum guard, without
consulting the Wilcoxon signed-rank test. -/
theorem claim_C10 (deltas : List ℚ) (h : deltas.sum = 0) :
    level_aposteriori_whole deltas = 1 := by
  unfold level_aposteriori_whole
  rw [if_pos h]

/-- Witness for C10 at the cancelling deltas 0.5, -0.5. -/
theorem claim_C10_witness : level_aposteriori_whole [1/2, -1/2] = 1 :=
  claim_C10 [1/2, -1/2] (by norm_num [List.sum_cons, List.sum_nil])

/-- The floor-division bin index selects exactly the spec's interval: for a
positive number of bins over a non-degenerate scale, a score is assigned bin
`i` precisely when it lies in the `i`-th equal-width half-open interval (the
last one closed on the right). -/
lemma binIndex_eq_some_iff {lo hi s : ℚ} {n i : ℕ} (hn : 0 < n) (hlh : lo < hi)
    (hin : i < n) :
    binIndex lo hi n s = some i ↔ memBin lo hi n i s := by
  unfold binIndex memBin
  set w := (hi - lo) / (n : ℚ) with hwdef
  have hw : 0 < w := div_pos (sub_pos.mpr hlh) (by exact_mod_cast hn)
  have hnw : (n : ℚ) * w = hi - lo := by
    rw [hwdef]
    field_simp
  by_cases hout : s < lo ∨ hi < s
  · rw [if_pos hout]
    refine iff_of_false (by simp) ?_
    rintro ⟨h1, h2⟩
    rcases hout with h | h
    · have hge : (0 : ℚ) ≤ (i : ℚ) * w := mul_nonneg (Nat.cast_nonneg i) hw.le
      linarith
    · by_cases hc : i + 1 = n
      · rw [if_pos hc] at h2
        linarith
      · rw [if_neg hc] at h2
        have hle : ((i : ℚ) + 1) ≤ (n : ℚ) := by exact_mod_cast hin
        have hmul : ((i : ℚ) + 1) * w ≤ (n : ℚ) * w :=
          mul_le_mul_of_nonneg_right hle hw.le
        linarith
  · rw [if_neg hout]
    push_neg at hout
    obtain ⟨hls, hsh⟩ := hout
    have hx0 : (0 : ℚ) ≤ (s - lo) / w := div_nonneg (by linarith) hw.le
    have hfl0 : 0 ≤ ⌊(s - lo) / w⌋ := Int.floor_nonneg.mpr hx0
    rw [Option.some_inj]
    by_cases hc : i + 1 = n
    · rw [if_pos hc]
      have hieq : i = n - 1 := by omega
      subst hieq
      constructor
      · intro hmin
        refine ⟨?_, hsh⟩
        have hk2 : ((n - 1 : ℕ) : ℤ) ≤ ⌊(s - lo) / w⌋ := by omega
        have hk3 : ((n - 1 : ℕ) : ℚ) ≤ (s - lo) / w := by exact_mod_cast Int.le_floor.mp hk2
        rw [le_div_iff₀ hw] at hk3
        linarith
      · rintro ⟨h1, _⟩
        have hk3 : ((n - 1 : ℕ) : ℚ) ≤ (s - lo) / w := by
          rw [le_div_iff₀ hw]
          linarith
        have hk2 : ((n - 1 : ℕ) : ℤ) ≤ ⌊(s - lo) / w⌋ :=
          Int.le_floor.mpr (by exact_mod_cast hk3)
        omega
    · rw [if_neg hc]
      have hi2 : i < n - 1 := by omega
      constructor
      · intro hmin
        have hfz : ⌊(s - lo) / w⌋ = (i : ℤ) := by omega
        obtain ⟨hlow, hup⟩ := Int.floor_eq_iff.mp hfz
        constructor
        · have hle : (i : ℚ) ≤ (s - lo) / w := by exact_mod_cast hlow
          rw [le_div_iff₀ hw] at hle
          linarith
        · have hlt : (s - lo) / w < (i : ℚ) + 1 := by exact_mod_cast hup
          rw [div_lt_iff₀ hw] at hlt
          linarith
      · rintro ⟨h1, h2⟩
        have hfz : ⌊(s - lo) / w⌋ = (i : ℤ) := by
          rw [Int.floor_eq_iff]
          constructor
          · push_cast
            rw [le_div_iff₀ hw]
            linarith
          · push_cast
            rw [div_lt_iff₀ hw]
            linarith
        omega

/-- C9: for a positive bin count and non-degenerate fixed scale bounds —
given by the rating scale, not derived from the sample — the histogram
operation partitions `[scale_min, scale_max]` into `bins_num` equal-width
half-open bins (last bin closed on the right) and counts the scores falling
in each. -/
theorem claim_C9 (scores : List ℚ) (n : ℕ) (lo hi : ℚ) (hn : 0 < n) (hlh : lo < hi) :
    to_histogram scores n lo hi =
      (List.range n).map (fun i => scores.countP (fun s => decide (memBin lo hi n i s))) := by
  unfold to_histogram
  apply List.map_congr_left
  intro i hi2
  rw [List.mem_range] at hi2
  apply List.countP_congr
  intro s _
  by_cases hmb : memBin lo hi n i s
  · simp [(binIndex_eq_some_iff hn hlh hi2).mpr hmb, hmb]
  · have hne : binIndex lo hi n s ≠ some i :=
      fun hc => hmb ((binIndex_eq_some_iff hn hlh hi2).mp hc)
    simp [hmb, hne]

/-- Witness for C9 at the repository's own histogram test: scores
1, 2, 2, 3, 3, 3, 4 in four bins over the scale 1..5. -/
theorem claim_C9_witness :
    to_histogram [1, 2, 2, 3, 3, 3, 4] 4 1 5 =
      (List.range 4).map (fun i => ([1, 2, 2, 3, 3, 3, 4] : List ℚ).countP
        (fun s => decide (memBin 1 5 4 i s))) :=
  claim_C9 _ 4 1 5 (by norm_num) (by norm_num)

end AnnotationAgreement
